import Mathlib

/-
Verification of the timeseries-importer repository.

Shallow embedding of the alignment, imputation and nearest-neighbour logic of
the four importer modules (DataImporter, FrostImporter, HavvarselFrostImporter,
NorKystImporter).  Timestamps are modelled as minutes since an arbitrary epoch
(the source parses times with minute resolution, "%Y-%m-%dT%H:%M"); one hour is
60 units.  Series rows carry a single value column, which suffices for every
property below.
-/

/-
FrostImporter.data (lines 84-120): the requested interval is split into
per-calendar-year batches; each batch is fetched and the per-batch frames are
appended in batch order.  A failed batch (HTTPError) makes the whole function
return None immediately.  We model the loop over batches 0..years by the list
List.range (years+1) and the per-batch fetch by a function into Option; a
series is a list of values.
-/

def frostBatches : List Nat → (Nat → Option (List Int)) → List Int → Option (List Int)
  | [], _, acc => some acc
  | b :: bs, f, acc =>
    match f b with
    | none => none
    | some df => frostBatches bs f (acc ++ df)

def frostData (years : Nat) (f : Nat → Option (List Int)) : Option (List Int) :=
  frostBatches (List.range (years + 1)) f []

/-
DataImporter.constructDataset (lines 64-66): the canonical grid is
pd.date_range(start_time, end_time, freq="H") followed by tz_localize("UTC").
For start <= end, pandas produces start, start+1h, ..., up to the largest
start + k hours that is <= end; for start > end the range is empty.  The
UTC labelling has no arithmetic content and is not modelled.
-/

def dateRangeH (s e : Int) : List Int :=
  if s ≤ e then (List.range ((e - s).toNat / 60 + 1)).map (fun (k : Nat) => s + 60 * (k : Int)) else []

/-- Modelled from the spec: flooring a timestamp to the hour, the operation the
spec claims the grid applies to its first element.  Int division rounds down. -/
def floorHour (t : Int) : Int := 60 * (t / 60)

theorem frostBatches_eq (bs : List Nat) (f : Nat → Option (List Int)) (acc : List Int) :
    frostBatches bs f acc =
      if ∀ b ∈ bs, (f b).isSome
      then some (acc ++ bs.flatMap (fun b => (f b).getD []))
      else none := by
  induction bs generalizing acc with
  | nil => simp [frostBatches]
  | cons b bs ih =>
    cases hf : f b with
    | none => simp [frostBatches, hf]
    | some df =>
      rw [frostBatches, hf]
      show frostBatches bs f (acc ++ df) = _
      rw [ih]
      by_cases hrest : ∀ x ∈ bs, (f x).isSome
      · simp [hrest, hf, List.flatMap_cons, List.append_assoc]
      · simp [hrest, hf]

/-- C1: the claim states that FrostImporter.data skips failing per-year
sub-intervals and returns the concatenation of the successful ones, failing
only when all sub-intervals fail.  Amended to what the code does: the
concatenation of all sub-interval series, in chronological batch order, is
returned when every sub-interval fetch succeeds, and the function returns
None as soon as any sub-interval fetch fails, discarding earlier successes. -/
theorem frostData_eq (years : Nat) (f : Nat → Option (List Int)) :
    frostData years f =
      if ∀ b ∈ List.range (years + 1), (f b).isSome
      then some ((List.range (years + 1)).flatMap (fun b => (f b).getD []))
      else none := by
  rw [frostData, frostBatches_eq]
  simp

/- Counterexample to C1 as stated: batch 0 succeeds with [42], batch 1 fails;
the claim predicts the result some [42], the code returns none. -/
theorem frostData_abort_counterexample :
    ((fun b => if b = 0 then some [(42 : Int)] else none) 0).isSome = true ∧
    frostData 1 (fun b => if b = 0 then some [(42 : Int)] else none) = none := by
  constructor
  · rfl
  · rfl

/-- C2: the claim states the grid starts at start floored to the hour and ends
at or after end.  Amended to what pd.date_range does: for start <= end the
grid is the nonempty strictly increasing hourly sequence that starts at start
itself (no flooring) and ends at the largest grid point that is <= end; the
requested end is covered only up to the last whole hour (no rounding up). -/
theorem dateRangeH_spec (s e : Int) (h : s ≤ e) :
    (dateRangeH s e).head? = some s ∧
    (dateRangeH s e).Chain' (fun a b => b = a + 60) ∧
    (dateRangeH s e).getLast? = some (s + 60 * ((e - s) / 60)) ∧
    s + 60 * ((e - s) / 60) ≤ e ∧
    e < s + 60 * ((e - s) / 60) + 60 := by
  have hrange : dateRangeH s e
      = (List.range ((e - s).toNat / 60 + 1)).map (fun (k : Nat) => s + 60 * (k : Int)) := by
    rw [dateRangeH, if_pos h]
  have hcast : (((e - s).toNat / 60 : Nat) : Int) = (e - s) / 60 := by omega
  refine ⟨?_, ?_, ?_, by omega, by omega⟩
  · rw [hrange, List.head?_map, List.range_succ_eq_map]
    simp
  · rw [hrange, List.chain'_map]
    rw [List.chain'_range_succ]
    intro m _
    push_cast
    ring
  · rw [hrange, List.range_succ, List.map_append]
    simp only [List.map_cons, List.map_nil, List.getLast?_concat]
    rw [hcast]

theorem dateRangeH_spec_witness :
    (dateRangeH 0 90).head? = some 0 ∧
    (dateRangeH 0 90).Chain' (fun a b => b = a + 60) ∧
    (dateRangeH 0 90).getLast? = some (0 + 60 * ((90 - 0) / 60)) ∧
    (0 : Int) + 60 * ((90 - 0) / 60) ≤ 90 ∧
    (90 : Int) < 0 + 60 * ((90 - 0) / 60) + 60 :=
  dateRangeH_spec 0 90 (by decide)

/- Counterexample to C2 as stated: start 00:30, end 02:00 (minutes 30 and 120).
The grid is [30, 90]: its head is 30, not the floored hour 0, and its last
element 90 does not reach the requested end 120. -/
theorem dateRangeH_counterexample :
    dateRangeH 30 120 = [30, 90] ∧
    floorHour 30 = 0 ∧ (30 : Int) ≠ 0 ∧ ¬ ((120 : Int) ≤ 90) := by
  refine ⟨?_, by decide, by decide, by decide⟩
  rfl

/-
DataImporter.imput_missing_data (lines 192-222): grid times absent from the
raw series are filled with the row returned by
timeseries.index.get_loc(t, method="nearest") after the referenceTime column
has been made the (datetime) index; the row is relabelled to the grid time and
appended to the restricted series ts.  For a monotonically increasing index
(which pandas requires for method="nearest"), get_loc returns the position
minimising the absolute time difference, resolving ties to the later
position.  Rows carry one value column; times are already datetimes here (the
dtype conversion side effect is modelled separately for the frame-effect
claim).
-/

structure Row where
  time : Int
  value : Int
deriving DecidableEq

/-- Position of the last occurrence of the minimum of a list, the tie policy
of pandas get_loc(-, method="nearest") on a monotonically increasing index. -/
def lastArgmin : List Int → Nat
  | [] => 0
  | [_] => 0
  | x :: y :: ys =>
    if (y :: ys).getD (lastArgmin (y :: ys)) 0 ≤ x then lastArgmin (y :: ys) + 1 else 0

/-- Position of the first occurrence of the minimum of a list, the tie policy
of numpy argmin. -/
def firstArgmin : List Int → Nat
  | [] => 0
  | [_] => 0
  | x :: y :: ys =>
    if (y :: ys).getD (firstArgmin (y :: ys)) 0 < x then firstArgmin (y :: ys) + 1 else 0

theorem lastArgmin_lt_length (l : List Int) (h : l ≠ []) : lastArgmin l < l.length := by
  induction l with
  | nil => exact absurd rfl h
  | cons x xs ih =>
    cases xs with
    | nil => simp [lastArgmin]
    | cons y ys =>
      rw [lastArgmin]
      by_cases hc : (y :: ys).getD (lastArgmin (y :: ys)) 0 ≤ x
      · rw [if_pos hc]
        have := ih (by simp)
        simp only [List.length_cons] at this ⊢
        omega
      · rw [if_neg hc]
        simp

theorem lastArgmin_le (l : List Int) (j : Nat) (hj : j < l.length) :
    l.getD (lastArgmin l) 0 ≤ l.getD j 0 := by
  induction l generalizing j with
  | nil => simp at hj
  | cons x xs ih =>
    cases xs with
    | nil =>
      have : j = 0 := by simp at hj; omega
      subst this
      simp [lastArgmin]
    | cons y ys =>
      rw [lastArgmin]
      by_cases hc : (y :: ys).getD (lastArgmin (y :: ys)) 0 ≤ x
      · rw [if_pos hc]
        rw [List.getD_cons_succ]
        cases j with
        | zero => simpa using hc
        | succ j =>
          rw [List.getD_cons_succ]
          exact ih j (by simpa using hj)
      · rw [if_neg hc]
        push_neg at hc
        rw [List.getD_cons_zero]
        cases j with
        | zero => simp
        | succ j =>
          rw [List.getD_cons_succ]
          exact le_of_lt (lt_of_lt_of_le hc (ih j (by simpa using hj)))

theorem lastArgmin_last (l : List Int) (j : Nat) (hj : j < l.length)
    (hv : l.getD j 0 ≤ l.getD (lastArgmin l) 0) : j ≤ lastArgmin l := by
  induction l generalizing j with
  | nil => simp at hj
  | cons x xs ih =>
    cases xs with
    | nil =>
      have : j = 0 := by simp at hj; omega
      omega
    | cons y ys =>
      rw [lastArgmin] at hv ⊢
      by_cases hc : (y :: ys).getD (lastArgmin (y :: ys)) 0 ≤ x
      · rw [if_pos hc] at hv ⊢
        cases j with
        | zero => omega
        | succ j =>
          rw [List.getD_cons_succ, List.getD_cons_succ] at hv
          exact Nat.succ_le_succ (ih j (by simpa using hj) hv)
      · rw [if_neg hc] at hv ⊢
        push_neg at hc
        cases j with
        | zero => exact Nat.le_refl 0
        | succ j =>
          exfalso
          rw [List.getD_cons_succ, List.getD_cons_zero] at hv
          have h2 := lastArgmin_le (y :: ys) j (by simpa using hj)
          have : (y :: ys).getD (lastArgmin (y :: ys)) 0 ≤ x := le_trans h2 hv
          exact absurd this (not_le.mpr hc)

theorem firstArgmin_lt_length (l : List Int) (h : l ≠ []) : firstArgmin l < l.length := by
  induction l with
  | nil => exact absurd rfl h
  | cons x xs ih =>
    cases xs with
    | nil => simp [firstArgmin]
    | cons y ys =>
      rw [firstArgmin]
      by_cases hc : (y :: ys).getD (firstArgmin (y :: ys)) 0 < x
      · rw [if_pos hc]
        have := ih (by simp)
        simp only [List.length_cons] at this ⊢
        omega
      · rw [if_neg hc]
        simp

theorem firstArgmin_le (l : List Int) (j : Nat) (hj : j < l.length) :
    l.getD (firstArgmin l) 0 ≤ l.getD j 0 := by
  induction l generalizing j with
  | nil => simp at hj
  | cons x xs ih =>
    cases xs with
    | nil =>
      have : j = 0 := by simp at hj; omega
      subst this
      simp [firstArgmin]
    | cons y ys =>
      rw [firstArgmin]
      by_cases hc : (y :: ys).getD (firstArgmin (y :: ys)) 0 < x
      · rw [if_pos hc]
        rw [List.getD_cons_succ]
        cases j with
        | zero => simpa using le_of_lt hc
        | succ j =>
          rw [List.getD_cons_succ]
          exact ih j (by simpa using hj)
      · rw [if_neg hc]
        push_neg at hc
        rw [List.getD_cons_zero]
        cases j with
        | zero => simp
        | succ j =>
          rw [List.getD_cons_succ]
          exact le_trans hc (ih j (by simpa using hj))

/-- The position pandas get_loc(t, method="nearest") selects on a
monotonically increasing index: minimal absolute difference to t, ties to the
later position. -/
def getLocNearest (idx : List Int) (t : Int) : Nat :=
  lastArgmin (idx.map (fun x => ((x - t).natAbs : Int)))

def imputMissingData (dataTimes : List Int) (timeseries ts : List Row) : List Row :=
  ts ++ (dataTimes.filter (fun t => !(timeseries.any (fun r => r.time == t)))).map
    (fun t => ⟨t, (timeseries.getD (getLocNearest (timeseries.map Row.time) t) ⟨0, 0⟩).value⟩)

/-- C3: the claim states that a missing grid timestamp is filled with the
value of the raw-series row closest in absolute time difference, ties broken
toward the earlier timestamp.  Amended to what the code does: for a raw
series with strictly increasing timestamps (pandas requires a monotonic index
for method="nearest"), each missing grid timestamp is filled, relabelled to
the grid time, with the value of a closest-in-time row, and a tie between two
equally close rows is resolved toward the later timestamp, not the earlier. -/
theorem imputMissingData_nearest (dataTimes : List Int) (timeseries ts : List Row)
    (hne : timeseries ≠ [])
    (hsort : (timeseries.map Row.time).Pairwise (fun a b => a < b)) :
    ∀ t ∈ dataTimes, (∀ r ∈ timeseries, r.time ≠ t) →
      ∃ r ∈ timeseries,
        (⟨t, r.value⟩ : Row) ∈ imputMissingData dataTimes timeseries ts ∧
        (∀ q ∈ timeseries, (r.time - t).natAbs ≤ (q.time - t).natAbs) ∧
        (∀ q ∈ timeseries, (q.time - t).natAbs = (r.time - t).natAbs → q.time ≤ r.time) := by
  intro t ht hmiss
  have hlen : (timeseries.map Row.time).length = timeseries.length :=
    List.length_map _ _
  set dists := (timeseries.map Row.time).map (fun x => ((x - t).natAbs : Int)) with hdname
  have hdlen : dists.length = timeseries.length := by
    rw [hdname, List.length_map, hlen]
  have hdne : dists ≠ [] := by
    intro hnil
    have := congrArg List.length hnil
    rw [hdlen] at this
    exact hne (List.length_eq_zero.mp (by simpa using this))
  set i := lastArgmin dists with hiname
  have hilt : i < timeseries.length := by
    rw [← hdlen]
    exact lastArgmin_lt_length dists hdne
  have hdget : ∀ (j : Nat) (hj : j < timeseries.length),
      dists.getD j 0 = (((timeseries.get ⟨j, hj⟩).time - t).natAbs : Int) := by
    intro j hj
    rw [hdname, List.getD_eq_get _ _ (by rw [List.length_map, hlen]; exact hj)]
    rw [List.get_eq_getElem, List.getElem_map, List.getElem_map, List.get_eq_getElem]
  have htget : ∀ (j : Nat) (hj : j < timeseries.length),
      (timeseries.map Row.time).get ⟨j, by rw [hlen]; exact hj⟩
        = (timeseries.get ⟨j, hj⟩).time := by
    intro j hj
    rw [List.get_eq_getElem, List.getElem_map, List.get_eq_getElem]
  refine ⟨timeseries.get ⟨i, hilt⟩, List.get_mem _ _ _, ?_, ?_, ?_⟩
  · apply List.mem_append_right
    apply List.mem_map.mpr
    refine ⟨t, List.mem_filter.mpr ⟨ht, ?_⟩, ?_⟩
    · have : timeseries.any (fun r => r.time == t) = false := by
        apply List.any_eq_false.mpr
        intro r hr
        simpa using hmiss r hr
      rw [this]
      rfl
    · have hgd : timeseries.getD (getLocNearest (timeseries.map Row.time) t) ⟨0, 0⟩
          = timeseries.get ⟨i, hilt⟩ := by
        have : getLocNearest (timeseries.map Row.time) t = i := by
          rw [getLocNearest, hiname, hdname]
        rw [this]
        exact List.getD_eq_get timeseries ⟨0, 0⟩ hilt
      rw [hgd]
  · intro q hq
    obtain ⟨⟨j, hj⟩, rfl⟩ := List.mem_iff_get.mp hq
    have h1 := lastArgmin_le dists j (by rw [hdlen]; exact hj)
    rw [← hiname, hdget j hj, hdget i hilt] at h1
    exact_mod_cast h1
  · intro q hq heq
    obtain ⟨⟨j, hj⟩, rfl⟩ := List.mem_iff_get.mp hq
    have hvj : dists.getD j 0 ≤ dists.getD (lastArgmin dists) 0 := by
      rw [← hiname, hdget j hj, hdget i hilt]
      exact_mod_cast le_of_eq heq
    have hji : j ≤ i := by
      rw [hiname]
      exact lastArgmin_last dists j (by rw [hdlen]; exact hj) hvj
    rcases Nat.lt_or_ge j i with hlt | hge
    · have hpg := List.pairwise_iff_get.mp hsort
        ⟨j, by rw [hlen]; exact hj⟩ ⟨i, by rw [hlen]; exact hilt⟩
        (by exact hlt)
      rw [htget j hj, htget i hilt] at hpg
      exact le_of_lt hpg
    · have : j = i := Nat.le_antisymm hji hge
      subst this
      exact le_refl _

/- Counterexample to C3 as stated: grid time 60 is equally far from raw rows
at times 0 (value 10) and 120 (value 20); the code fills with the later row's
value 20, the claim demands the earlier row's value 10. -/
theorem imputMissingData_tie_counterexample :
    imputMissingData [60] [⟨0, 10⟩, ⟨120, 20⟩] [] = [(⟨60, 20⟩ : Row)] ∧
    imputMissingData [60] [⟨0, 10⟩, ⟨120, 20⟩] [] ≠ [(⟨60, 10⟩ : Row)] := by
  constructor
  · rfl
  · decide

theorem imputMissingData_nearest_witness :
    ∃ r ∈ [(⟨0, 10⟩ : Row), ⟨120, 20⟩],
      (⟨60, r.value⟩ : Row) ∈ imputMissingData [60] [⟨0, 10⟩, ⟨120, 20⟩] [] ∧
      (∀ q ∈ [(⟨0, 10⟩ : Row), ⟨120, 20⟩], (r.time - 60).natAbs ≤ (q.time - 60).natAbs) ∧
      (∀ q ∈ [(⟨0, 10⟩ : Row), ⟨120, 20⟩],
        (q.time - 60).natAbs = (r.time - 60).natAbs → q.time ≤ r.time) :=
  imputMissingData_nearest [60] [⟨0, 10⟩, ⟨120, 20⟩] [] (by decide)
    (by decide) 60 (by decide) (by decide)

/-
DataImporter.left_join (lines 157-189): the raw series is restricted to the
base table's times; if the base table has MORE ROWS than the restricted
series (len(data) > len(ts), a raw row count comparison, not a distinct
timestamp comparison) the imputer is invoked; then a left join on time is
performed and the new columns are renamed to station_id + param + str(i).
A pandas left join emits one output row per matching pair, so duplicated
right-hand timestamps duplicate base rows.
-/

def restrictTs (timeseries : List Row) (dataTimes : List Int) : List Row :=
  timeseries.filter (fun r => dataTimes.contains r.time)

def leftJoinImputes (dataTimes : List Int) (timeseries : List Row) : Bool :=
  decide ((restrictTs timeseries dataTimes).length < dataTimes.length)

def mergeChunk (ts : List Row) (t : Int) : List (Int × Option Int) :=
  if (ts.filter (fun r => r.time == t)).isEmpty then [(t, none)]
  else (ts.filter (fun r => r.time == t)).map (fun r => (t, some r.value))

def leftMerge (dataTimes : List Int) (ts : List Row) : List (Int × Option Int) :=
  dataTimes.flatMap (mergeChunk ts)

def leftJoin (dataTimes : List Int) (timeseries : List Row) : List (Int × Option Int) :=
  leftMerge dataTimes
    (cond (leftJoinImputes dataTimes timeseries)
      (imputMissingData dataTimes timeseries (restrictTs timeseries dataTimes))
      (restrictTs timeseries dataTimes))

/-- The column name station_id + param + str(i) produced by the renaming loop
of left_join, modelled as a character list. -/
def renamedCol (sid param : List Char) (i : Nat) : List Char :=
  sid ++ param ++ (Nat.repr i).data

theorem filter_time_length_le_one (l : List Row) (h : (l.map Row.time).Nodup) (t : Int) :
    (l.filter (fun r => r.time == t)).length ≤ 1 := by
  induction l with
  | nil => simp
  | cons r l ih =>
    rw [List.map_cons, List.nodup_cons] at h
    by_cases hr : r.time = t
    · rw [List.filter_cons_of_pos (by simpa using hr)]
      have hnil : l.filter (fun r => r.time == t) = [] := by
        apply List.filter_eq_nil.mpr
        intro a ha
        simp only [beq_iff_eq]
        intro hat
        exact h.1 (by rw [hr, ← hat]; exact List.mem_map_of_mem Row.time ha)
      rw [hnil]
      simp
    · rw [List.filter_cons_of_neg (by simpa using hr)]
      exact ih h.2

theorem mergeChunk_map_fst (ts : List Row) (t : Int)
    (h : (ts.filter (fun r => r.time == t)).length ≤ 1) :
    (mergeChunk ts t).map Prod.fst = [t] := by
  cases hfl : ts.filter (fun r => r.time == t) with
  | nil => rw [mergeChunk, hfl]; simp
  | cons r tail =>
    rw [hfl] at h
    have htail : tail = [] := by
      simp only [List.length_cons] at h
      exact List.length_eq_zero.mp (by omega)
    subst htail
    rw [mergeChunk, hfl]
    simp

theorem leftMerge_map_fst (dataTimes : List Int) (ts : List Row)
    (h : ∀ t, (ts.filter (fun r => r.time == t)).length ≤ 1) :
    (leftMerge dataTimes ts).map Prod.fst = dataTimes := by
  induction dataTimes with
  | nil => rfl
  | cons t rest ih =>
    rw [leftMerge, List.flatMap_cons, List.map_append]
    have hrest : (List.flatMap rest (mergeChunk ts)).map Prod.fst = rest := ih
    rw [hrest, mergeChunk_map_fst ts t (h t)]
    rfl

theorem restrictTs_times_nodup (timeseries : List Row) (dataTimes : List Int)
    (ht : (timeseries.map Row.time).Nodup) :
    ((restrictTs timeseries dataTimes).map Row.time).Nodup :=
  List.Nodup.sublist (List.Sublist.map Row.time (List.filter_sublist timeseries)) ht

theorem imputMissingData_times (dataTimes : List Int) (timeseries ts : List Row) :
    (imputMissingData dataTimes timeseries ts).map Row.time
      = ts.map Row.time
        ++ dataTimes.filter (fun t => !(timeseries.any (fun r => r.time == t))) := by
  rw [imputMissingData, List.map_append, List.map_map]
  congr 1
  exact List.map_id _

theorem imputed_times_nodup (dataTimes : List Int) (timeseries : List Row)
    (hd : dataTimes.Nodup) (ht : (timeseries.map Row.time).Nodup) :
    ((imputMissingData dataTimes timeseries
        (restrictTs timeseries dataTimes)).map Row.time).Nodup := by
  rw [imputMissingData_times]
  apply List.Nodup.append
  · exact restrictTs_times_nodup timeseries dataTimes ht
  · exact List.Nodup.filter _ hd
  · intro a ha hb
    obtain ⟨r, hr, hra⟩ := List.mem_map.mp ha
    have hrts : r ∈ timeseries := List.mem_of_mem_filter hr
    obtain ⟨-, hbq⟩ := List.mem_filter.mp hb
    have : timeseries.any (fun q => q.time == a) = true :=
      List.any_eq_true.mpr ⟨r, hrts, by simpa using hra⟩
    rw [Bool.not_eq_true'] at hbq
    rw [hbq] at this
    cases this

/-- C7: the claim states left_join preserves the base table's row count and
time column even for auxiliary series containing duplicate timestamps, and
that renamed columns are pairwise distinct across calls with different key
prefixes.  Amended to what the code does: when the base times and the raw
series' timestamps are each duplicate-free, the joined table has exactly the
base table's time values in the same order; a duplicated matching timestamp
instead repeats the base row once per duplicate, and two different prefixes
can still produce the same concatenated column name. -/
theorem leftJoin_preserves_times (dataTimes : List Int) (timeseries : List Row)
    (hd : dataTimes.Nodup) (ht : (timeseries.map Row.time).Nodup) :
    (leftJoin dataTimes timeseries).map Prod.fst = dataTimes := by
  rw [leftJoin]
  apply leftMerge_map_fst
  intro t
  apply filter_time_length_le_one
  cases hc : leftJoinImputes dataTimes timeseries
  · rw [Bool.cond_false]
    exact restrictTs_times_nodup timeseries dataTimes ht
  · rw [Bool.cond_true]
    exact imputed_times_nodup dataTimes timeseries hd ht

theorem leftJoin_preserves_times_witness :
    (leftJoin [0, 60] [(⟨0, 1⟩ : Row), ⟨120, 2⟩]).map Prod.fst = [0, 60] :=
  leftJoin_preserves_times [0, 60] [⟨0, 1⟩, ⟨120, 2⟩] (by decide) (by decide)

/- Counterexample to C7 as stated: a raw series with duplicate timestamp 0
makes the join emit two rows for the single base row at time 0; and the
prefixes "A" and "A1" with parameter "1" yield the same column name "A111"
(ordinals 11 and 1 respectively). -/
theorem leftJoin_duplicate_counterexample :
    (leftJoin [0] [(⟨0, 1⟩ : Row), ⟨0, 2⟩]).map Prod.fst = [0, 0] ∧
    ([0] : List Int).length ≠ (leftJoin [0] [(⟨0, 1⟩ : Row), ⟨0, 2⟩]).length ∧
    renamedCol ['A'] ['1'] 11 = renamedCol ['A', '1'] ['1'] 1 ∧
    (['A'] : List Char) ≠ ['A', '1'] := by
  refine ⟨rfl, by decide, rfl, by decide⟩

/-- C4: the claim states imputation is triggered exactly when the base table
has strictly more distinct timestamps than the restricted series.  The code
compares raw row counts, so a duplicate timestamp in the restricted series
masks a missing distinct timestamp: below the base has 3 distinct times and
the restricted series only 2, yet no imputation is triggered because the
restricted series also has 3 rows.  The spec (design note on the row-count
heuristic) marks the distinct-timestamp comparison as the intent, so this is
recorded as a code bug, evaluated here at the failing input. -/
theorem leftJoinImputes_rowcount_bug :
    leftJoinImputes [0, 60, 120] [(⟨0, 1⟩ : Row), ⟨0, 2⟩, ⟨60, 3⟩] = false ∧
    (((restrictTs [(⟨0, 1⟩ : Row), ⟨0, 2⟩, ⟨60, 3⟩] [0, 60, 120]).map Row.time).dedup).length
      < (([0, 60, 120] : List Int).dedup).length := by
  refine ⟨rfl, by decide⟩

/-
NorKystImporter.norkyst_data (lines 139-143): the selected grid cell is
np.unravel_index(argmin((xproj1-xp1)**2 + (yproj1-yp1)**2 + land_mask*1e12)).
We model the flattened grid as a list of cells, each carrying its squared
planar distance to the reference point and its land flag; unravel_index is a
bijection on indices and is not modelled.  np.argmin takes the first position
attaining the minimum.  The penalty 1e12 is finite, so it only dominates
squared distances below 10^12 square metres (i.e. sea cells within 1000 km).
-/

structure Cell where
  dist2 : Int
  land : Bool
deriving DecidableEq

def landPenalty : Int := 10 ^ 12

def penalized (c : Cell) : Int := c.dist2 + (if c.land then landPenalty else 0)

def locateCell (cells : List Cell) : Nat := firstArgmin (cells.map penalized)

/-- C5: the claim states the selection never returns a land cell whenever the
grid has at least one sea cell, regardless of distances.  Amended: the
selected cell is a sea cell provided some sea cell lies strictly closer than
the land penalty (squared distance below 10^12); a sea grid whose cells are
all at least that far away can lose to a nearby land cell. -/
theorem locateCell_sea (cells : List Cell)
    (hpos : ∀ c ∈ cells, 0 ≤ c.dist2)
    (hsea : ∃ c ∈ cells, c.land = false ∧ c.dist2 < landPenalty) :
    locateCell cells < cells.length ∧
    (cells.getD (locateCell cells) ⟨0, true⟩).land = false := by
  obtain ⟨c0, hc0, hc0land, hc0lt⟩ := hsea
  have hloc : locateCell cells = firstArgmin (cells.map penalized) := rfl
  have hne : cells ≠ [] := by
    intro h
    rw [h] at hc0
    cases hc0
  have hplen : (cells.map penalized).length = cells.length := List.length_map _ _
  have hpne : cells.map penalized ≠ [] := by
    intro h
    have := congrArg List.length h
    rw [hplen] at this
    exact hne (List.length_eq_zero.mp (by simpa using this))
  have hilt : locateCell cells < cells.length := by
    rw [hloc, ← hplen]
    exact firstArgmin_lt_length _ hpne
  refine ⟨hilt, ?_⟩
  -- value of the penalized list at any position
  have hpget : ∀ (j : Nat) (hj : j < cells.length),
      (cells.map penalized).getD j 0 = penalized (cells.get ⟨j, hj⟩) := by
    intro j hj
    rw [List.getD_eq_get _ _ (by rw [hplen]; exact hj)]
    rw [List.get_eq_getElem, List.getElem_map, List.get_eq_getElem]
  obtain ⟨⟨j0, hj0⟩, hj0eq⟩ := List.mem_iff_get.mp hc0
  have hflt : firstArgmin (cells.map penalized) < cells.length := by
    rw [← hloc]
    exact hilt
  have hmin := firstArgmin_le (cells.map penalized) j0 (by rw [hplen]; exact hj0)
  rw [hpget j0 hj0, hpget _ hflt, hj0eq] at hmin
  have hc0pen : penalized c0 < landPenalty := by
    rw [penalized, hc0land]
    simpa using hc0lt
  have hsel : cells.getD (locateCell cells) ⟨0, true⟩
      = cells.get ⟨firstArgmin (cells.map penalized), hflt⟩ :=
    List.getD_eq_get cells ⟨0, true⟩ hilt
  rw [hsel]
  by_contra hland
  rw [Bool.not_eq_false] at hland
  have hge : landPenalty ≤ penalized (cells.get ⟨firstArgmin (cells.map penalized), hflt⟩) := by
    rw [penalized, hland, if_pos rfl]
    have := hpos _ (List.get_mem cells _ hflt)
    omega
  omega

theorem locateCell_sea_witness :
    locateCell [(⟨5, true⟩ : Cell), ⟨7, false⟩] < ([(⟨5, true⟩ : Cell), ⟨7, false⟩]).length ∧
    (([(⟨5, true⟩ : Cell), ⟨7, false⟩]).getD
      (locateCell [(⟨5, true⟩ : Cell), ⟨7, false⟩]) ⟨0, true⟩).land = false :=
  locateCell_sea [⟨5, true⟩, ⟨7, false⟩] (by decide) (by decide)

/- Counterexample to C5 as stated: a land cell at squared distance 0 beats a
sea cell at squared distance 2 * 10^12 because the penalty is finite; the
grid contains a sea cell, yet the land cell is selected. -/
theorem locateCell_land_counterexample :
    (([(⟨0, true⟩ : Cell), ⟨2 * landPenalty, false⟩]).any (fun c => !c.land)) = true ∧
    (([(⟨0, true⟩ : Cell), ⟨2 * landPenalty, false⟩]).getD
      (locateCell [(⟨0, true⟩ : Cell), ⟨2 * landPenalty, false⟩]) ⟨0, false⟩).land = true := by
  refine ⟨rfl, ?_⟩
  rfl

/-
DataImporter.constructDataset (lines 114-116 and 133-134): the NorKyst
extraction is called with (location lon, location lat), the post-processed
forecast extraction is called with (location lon, location LON) - the
latitude argument is a copy-paste of the longitude column.
-/

structure Location where
  lon : Int
  lat : Int
deriving DecidableEq

def norkystCallCoords (loc : Location) : Int × Int := (loc.lon, loc.lat)

def ppCallCoords (loc : Location) : Int × Int := (loc.lon, loc.lon)

/-- C6: the claim states every gridded-forecast extraction receives the
site's own (longitude, latitude) pair.  The NorKyst call does, but the
post-processed forecast call passes the longitude twice (line 134), so for
any site whose latitude differs from its longitude the extraction is taken
at the wrong point.  The claim matches the evident intent (the adjacent
NorKyst call is correct), so this is a code bug, evaluated at lon 3, lat 60. -/
theorem ppCallCoords_bug :
    ppCallCoords ⟨3, 60⟩ = (3, 3) ∧
    ppCallCoords ⟨3, 60⟩ ≠ ((Location.mk 3 60).lon, (Location.mk 3 60).lat) ∧
    norkystCallCoords ⟨3, 60⟩ = ((Location.mk 3 60).lon, (Location.mk 3 60).lat) := by
  refine ⟨rfl, by decide, rfl⟩

/-
NorKystImporter.norkyst_data (lines 147-154): depth resolution is
depth_index = np.where(all_depths == int(depth))[0][0] - an exact equality
match against the truncated requested depth; the [0][0] lookup raises
IndexError when no axis value matches.  We model the axis as rationals, the
python int() truncation toward zero, and np.where(...)[0][0] as the first
matching index, with none standing for the IndexError.
-/

def pyInt (q : ℚ) : Int := Int.tdiv q.num (q.den : Int)

def whereFirst (p : ℚ → Bool) : List ℚ → Option Nat
  | [] => none
  | d :: ds => if p d then some 0 else (whereFirst p ds).map (fun j => j + 1)

def depthIndex (axis : List ℚ) (depth : ℚ) : Option Nat :=
  whereFirst (fun d => d == (pyInt depth : ℚ)) axis

theorem whereFirst_none (p : ℚ → Bool) (l : List ℚ) :
    whereFirst p l = none ↔ ∀ d ∈ l, ¬p d = true := by
  induction l with
  | nil => simp [whereFirst]
  | cons d ds ih =>
    rw [whereFirst]
    cases hpd : p d
    · rw [if_neg Bool.false_ne_true, Option.map_eq_none', ih]
      constructor
      · intro h x hx
        rcases List.mem_cons.mp hx with rfl | hx2
        · rw [hpd]
          exact Bool.false_ne_true
        · exact h x hx2
      · intro h x hx
        exact h x (List.mem_cons_of_mem d hx)
    · rw [if_pos rfl]
      constructor
      · intro h
        cases h
      · intro h
        exact absurd hpd (h d (List.mem_cons_self d ds))

theorem whereFirst_some (p : ℚ → Bool) (l : List ℚ) (i : Nat)
    (h : whereFirst p l = some i) :
    i < l.length ∧ p (l.getD i 0) = true ∧ ∀ j < i, ¬p (l.getD j 0) = true := by
  induction l generalizing i with
  | nil => cases h
  | cons d ds ih =>
    rw [whereFirst] at h
    by_cases hd : p d
    · rw [if_pos hd] at h
      cases h
      exact ⟨Nat.succ_pos _, hd, by omega⟩
    · rw [if_neg hd] at h
      obtain ⟨j, hj, rfl⟩ := Option.map_eq_some'.mp h
      obtain ⟨h1, h2, h3⟩ := ih j hj
      refine ⟨by simpa using h1, by simpa using h2, ?_⟩
      intro k hk
      cases k with
      | zero => simpa using hd
      | succ k =>
        rw [List.getD_cons_succ]
        exact h3 k (by omega)

/-- C9: the claim states the requested depth is resolved to the nearest
matching index of the discrete depth axis and any depth value absent from
the axis fails with DepthNotFoundError.  Amended to what the code does: the
requested depth is first truncated toward zero by int(), then the FIRST axis
position exactly equal to the truncation is returned; the lookup fails (an
IndexError, the spec's DepthNotFoundError) exactly when the truncated depth
is absent, so a fractional depth whose truncation lies on the axis succeeds
even though the requested value itself is absent from the axis. -/
theorem depthIndex_spec (axis : List ℚ) (depth : ℚ) :
    (depthIndex axis depth = none ↔ ∀ d ∈ axis, d ≠ (pyInt depth : ℚ)) ∧
    ∀ i, depthIndex axis depth = some i →
      i < axis.length ∧ axis.getD i 0 = (pyInt depth : ℚ) ∧
        ∀ j < i, axis.getD j 0 ≠ (pyInt depth : ℚ) := by
  constructor
  · rw [depthIndex, whereFirst_none]
    constructor
    · intro h d hd
      simpa using h d hd
    · intro h d hd
      simpa using h d hd
  · intro i hi
    obtain ⟨h1, h2, h3⟩ := whereFirst_some _ axis i hi
    refine ⟨h1, by simpa using h2, ?_⟩
    intro j hj
    simpa using h3 j hj

theorem depthIndex_spec_witness :
    1 < ([(0 : ℚ), 3, 10]).length ∧
    ([(0 : ℚ), 3, 10]).getD 1 0 = (pyInt 3 : ℚ) ∧
    ∀ j < 1, ([(0 : ℚ), 3, 10]).getD j 0 ≠ (pyInt 3 : ℚ) :=
  (depthIndex_spec [0, 3, 10] 3).2 1 (by decide)

/- Counterexample to C9 as stated: requesting depth 1/2 on the axis
[0, 3, 10] does not fail although 1/2 is absent from the axis; int() turns
it into 0 and index 0 is returned. -/
theorem depthIndex_truncation_counterexample :
    (∀ d ∈ [(0 : ℚ), 3, 10], d ≠ mkRat 1 2) ∧
    depthIndex [(0 : ℚ), 3, 10] (mkRat 1 2) = some 0 := by
  refine ⟨by decide, ?_⟩
  rfl

/-
DataImporter.imput_missing_data, caller-visible effect on the raw series
(lines 201-207): inside the loop over missing grid times, the first
iteration executes
  timeseries["referenceTime"] = pd.to_datetime(timeseries["referenceTime"]),
an in-place write into the caller's dataframe that converts the column to
datetime dtype, before the local name is rebound to a set_index copy.  We
model a column cell as either an unparsed (raw) time representation or an
already-datetime value, and the caller's frame as its time column plus its
value column.  The write happens only when at least one grid time is missing
from the series.
-/

inductive TimeCell where
  | raw (t : Int)
  | dt (t : Int)
deriving DecidableEq

def TimeCell.toDatetime : TimeCell → TimeCell
  | .raw t => .dt t
  | .dt t => .dt t

def TimeCell.timeOf : TimeCell → Int
  | .raw t => t
  | .dt t => t

structure TSFrame where
  times : List TimeCell
  vals : List Int
deriving DecidableEq

/-- The caller's timeseries frame after imput_missing_data returns: if some
grid time is missing from the series the referenceTime column has been
converted to datetime in place, otherwise the frame is untouched. -/
def imputCallerTimeseries (dataTimes : List Int) (ts : TSFrame) : TSFrame :=
  if (dataTimes.filter (fun t => !((ts.times.map TimeCell.timeOf).contains t))).isEmpty
  then ts
  else ⟨ts.times.map TimeCell.toDatetime, ts.vals⟩

theorem map_toDatetime_id (l : List TimeCell) (h : ∀ c ∈ l, TimeCell.toDatetime c = c) :
    l.map TimeCell.toDatetime = l := by
  induction l with
  | nil => rfl
  | cons c cs ih =>
    rw [List.map_cons, h c (List.mem_cons_self c cs),
      ih (fun x hx => h x (List.mem_cons_of_mem c hx))]

/-- C10: the claim states imput_missing_data never mutates the caller's raw
series, for every input.  Amended: the caller's frame is unchanged whenever
its referenceTime column is already datetime-typed (the situation in every
in-repository call path); when the column still holds unparsed values and at
least one grid timestamp is missing, the in-place pd.to_datetime assignment
rewrites the caller's column, so the table is not identical before and
after. -/
theorem imputCallerTimeseries_no_mutation (dataTimes : List Int) (ts : TSFrame)
    (h : ∀ c ∈ ts.times, TimeCell.toDatetime c = c) :
    imputCallerTimeseries dataTimes ts = ts := by
  rw [imputCallerTimeseries]
  split
  · rfl
  · cases ts with
    | mk times vals =>
      rw [TSFrame.mk.injEq]
      exact ⟨map_toDatetime_id times h, rfl⟩

theorem imputCallerTimeseries_no_mutation_witness :
    imputCallerTimeseries [60] ⟨[TimeCell.dt 0], [10]⟩ = ⟨[TimeCell.dt 0], [10]⟩ :=
  imputCallerTimeseries_no_mutation [60] ⟨[TimeCell.dt 0], [10]⟩ (by decide)

/- Counterexample to C10 as stated: a raw series whose referenceTime column
holds an unparsed value is mutated (the cell becomes a datetime) when a grid
time is missing, so the caller's table differs before and after. -/
theorem imputCallerTimeseries_mutation_counterexample :
    imputCallerTimeseries [60] ⟨[TimeCell.raw 0], [10]⟩ ≠ ⟨[TimeCell.raw 0], [10]⟩ := by
  decide

/-
FrostImporter.location_ids (lines 183-198): for each candidate station a
haversine distance to the reference point is computed (the haversine package
formula, degrees in, kilometres out) and df_dist.nsmallest(n, "dist") picks
the n rows with smallest distance, ascending.  pandas computes this in two
regimes: for n strictly below the row count it takes a selection path that
ends in a mergesort-based argsort, so ties between equal distances keep
their dataframe positions (keep="first"); for n at or above the row count it
instead returns sort_values(ascending=True).head(n), and the default numpy
quicksort there is unstable, so in that regime the relative order of exactly
tied distances carries no guarantee.  The model below covers the stable
selection regime only, as a sort by the lexicographic key (distance,
original position) followed by take n; the unstable regime at n equal to
the row count is not modelled.
-/

noncomputable def earthRadiusKm : ℝ := 6371.0088

noncomputable def haversineKm (p q : ℝ × ℝ) : ℝ :=
  2 * earthRadiusKm * Real.arcsin (Real.sqrt (
    Real.sin ((q.1 - p.1) * Real.pi / 360) ^ 2 +
    Real.cos (p.1 * Real.pi / 180) * Real.cos (q.1 * Real.pi / 180) *
      Real.sin ((q.2 - p.2) * Real.pi / 360) ^ 2))

structure DistRec where
  idx : Nat
  dist : ℝ
  sid : Nat

/-- Ordering used by nsmallest(n, "dist") with keep="first": by distance,
ties by original position. -/
def recLE (a b : DistRec) : Prop :=
  a.dist < b.dist ∨ (a.dist = b.dist ∧ a.idx ≤ b.idx)

noncomputable instance : DecidableRel recLE := fun _ _ => Classical.dec _

instance : IsTotal DistRec recLE :=
  ⟨by
    intro a b
    rcases lt_trichotomy a.dist b.dist with h | h | h
    · exact Or.inl (Or.inl h)
    · rcases Nat.le_total a.idx b.idx with hi | hi
      · exact Or.inl (Or.inr ⟨h, hi⟩)
      · exact Or.inr (Or.inr ⟨h.symm, hi⟩)
    · exact Or.inr (Or.inl h)⟩

instance : IsTrans DistRec recLE :=
  ⟨by
    intro a b c hab hbc
    rcases hab with hab | ⟨hab, hab2⟩
    · rcases hbc with hbc | ⟨hbc, _⟩
      · exact Or.inl (lt_trans hab hbc)
      · exact Or.inl (hbc ▸ hab)
    · rcases hbc with hbc | ⟨hbc, hbc2⟩
      · exact Or.inl (hab ▸ hbc)
      · exact Or.inr ⟨hab.trans hbc, le_trans hab2 hbc2⟩⟩

noncomputable def rankStations (ref : ℝ × ℝ) (cands : List (Nat × (ℝ × ℝ))) (n : Nat) :
    List DistRec :=
  (List.insertionSort recLE
    (cands.enum.map (fun ci => (⟨ci.1, haversineKm ref ci.2.2, ci.2.1⟩ : DistRec)))).take n

theorem haversineKm_self (p : ℝ × ℝ) : haversineKm p p = 0 := by
  simp [haversineKm]

/-- Fast-path ranking property of location_ids: for n strictly below the
candidate count, nsmallest(n, "dist") returns exactly n records, sorted
ascending by haversine distance with ties between equal distances resolved
by input order (the records' original positions are pairwise distinct, and
recLE orders equal distances by position); a candidate located at the
reference point itself has haversine distance 0.  At n equal to the
candidate count pandas switches to an unstable sort, so the tie-order part
of this statement is not asserted there. -/
theorem rankStations_spec (ref : ℝ × ℝ) (cands : List (Nat × (ℝ × ℝ))) (n : Nat)
    (_hn : 1 ≤ n) (hlen : n < cands.length) :
    (rankStations ref cands n).length = n ∧
    (rankStations ref cands n).Pairwise recLE ∧
    ((rankStations ref cands n).map DistRec.idx).Nodup ∧
    haversineKm ref ref = 0 := by
  set recs := cands.enum.map (fun ci => (⟨ci.1, haversineKm ref ci.2.2, ci.2.1⟩ : DistRec))
    with hrecs
  have hperm := List.perm_insertionSort recLE recs
  have hlenrecs : recs.length = cands.length := by
    rw [hrecs, List.length_map, List.enum_length]
  have hsortlen : (List.insertionSort recLE recs).length = cands.length := by
    rw [hperm.length_eq, hlenrecs]
  have hrank : rankStations ref cands n = (List.insertionSort recLE recs).take n := by
    rw [hrecs]
    rfl
  refine ⟨?_, ?_, ?_, haversineKm_self ref⟩
  · rw [hrank, List.length_take, hsortlen]
    exact inf_eq_left.mpr (le_of_lt hlen)
  · rw [hrank]
    exact List.Pairwise.sublist (List.take_sublist n _) (List.sorted_insertionSort recLE recs)
  · have hids : recs.map DistRec.idx = List.range cands.length := by
      rw [hrecs, List.map_map]
      have hcomp : (DistRec.idx ∘ fun ci : Nat × (Nat × (ℝ × ℝ)) =>
          (⟨ci.1, haversineKm ref ci.2.2, ci.2.1⟩ : DistRec)) = Prod.fst := by
        funext ci
        rfl
      rw [hcomp, List.enum_map_fst]
    have hnodup_sort : ((List.insertionSort recLE recs).map DistRec.idx).Nodup := by
      have hpm := hperm.map DistRec.idx
      rw [hids] at hpm
      exact hpm.nodup_iff.mpr (List.nodup_range _)
    have hsub : List.Sublist
        (((List.insertionSort recLE recs).take n).map DistRec.idx)
        ((List.insertionSort recLE recs).map DistRec.idx) :=
      List.Sublist.map DistRec.idx (List.take_sublist n _)
    rw [hrank]
    exact List.Nodup.sublist hsub hnodup_sort

theorem rankStations_spec_witness :
    (rankStations (0, 0) [(5, (0, 0)), (7, (1, 1))] 1).length = 1 ∧
    (rankStations (0, 0) [(5, (0, 0)), (7, (1, 1))] 1).Pairwise recLE ∧
    ((rankStations (0, 0) [(5, (0, 0)), (7, (1, 1))] 1).map DistRec.idx).Nodup ∧
    haversineKm (0, 0) (0, 0) = 0 :=
  rankStations_spec (0, 0) [(5, (0, 0)), (7, (1, 1))] 1 (by omega) (by simp)
